import Mathlib

/-!
Verification development for the regularized linear regression core of the
Regression-analysis repository (notebook `Regularization.ipynb`).

The notebook itself only calls library routines (`Ridge`, `Lasso`,
`ElasticNet`, `PolynomialFeatures`, `train_test_split`, `r2_score`,
`mean_squared_error`); the solver algorithms are therefore not present under
`src/` and are modelled here from the specification's own descriptions
(section 4 of the spec).  All arithmetic is over `ℚ`, so every fit is exact
and executable; the floating-point rounding of the original is out of scope.
-/

namespace RegressionAnalysis

open Matrix BigOperators

/-! ## Basic statistics and linear-algebra helpers -/

/-- Mean of a vector of length `n` (the convention `x / 0 = 0` applies when
`n = 0`; all claims about fits assume `n ≥ 1`). -/
def mean (n : ℕ) (v : Fin n → ℚ) : ℚ := (∑ i, v i) / n

/-- Sum of squares of a vector, the square of its Euclidean norm. -/
def sumSq {m : ℕ} (v : Fin m → ℚ) : ℚ := ∑ i, v i ^ 2

/-- Column means of a design matrix. -/
def colMean {n p : ℕ} (X : Matrix (Fin n) (Fin p) ℚ) : Fin p → ℚ :=
  fun j => mean n (fun i => X i j)

/-- Center a vector by subtracting its mean. -/
def centerVec (n : ℕ) (v : Fin n → ℚ) : Fin n → ℚ :=
  fun i => v i - mean n v

/-- Center every column of a design matrix. -/
def centerCols {n p : ℕ} (X : Matrix (Fin n) (Fin p) ℚ) :
    Matrix (Fin n) (Fin p) ℚ :=
  Matrix.of fun i j => X i j - colMean X j

/-! ## Ridge regression, modelled from the spec

Modelled from the spec: the repository calls `sklearn.linear_model.Ridge`,
whose implementation is not part of the repository.  The spec (section 4.1)
prescribes the closed form `β = (XᵀX + λI)⁻¹ Xᵀ y` after centering `y` and
`X`, with the intercept recovered from the means.  Over `ℚ` the inverse is
realized through the adjugate; for a singular matrix (possible only at
`λ = 0`) the `ℚ` convention `0⁻¹ = 0` makes the "inverse" the zero matrix. -/

/-- The regularized normal-equation matrix `XcᵀXc + λ·I` of the centered
design matrix. -/
def ridgeMat {n p : ℕ} (X : Matrix (Fin n) (Fin p) ℚ) (lam : ℚ) :
    Matrix (Fin p) (Fin p) ℚ :=
  (centerCols X)ᵀ * centerCols X + lam • (1 : Matrix (Fin p) (Fin p) ℚ)

/-- Executable matrix inverse over `ℚ` via the adjugate; equals the true
inverse whenever the determinant is nonzero, and the zero matrix otherwise. -/
def adjInv {p : ℕ} (A : Matrix (Fin p) (Fin p) ℚ) :
    Matrix (Fin p) (Fin p) ℚ :=
  (A.det)⁻¹ • A.adjugate

/-- Ridge coefficients: the spec's closed form on centered data. -/
def ridgeBeta {n p : ℕ} (X : Matrix (Fin n) (Fin p) ℚ) (y : Fin n → ℚ)
    (lam : ℚ) : Fin p → ℚ :=
  adjInv (ridgeMat X lam) *ᵥ ((centerCols X)ᵀ *ᵥ centerVec n y)

/-- Ridge intercept: `ȳ − x̄ ⬝ β`. -/
def ridgeIntercept {n p : ℕ} (X : Matrix (Fin n) (Fin p) ℚ) (y : Fin n → ℚ)
    (lam : ℚ) : ℚ :=
  mean n y - colMean X ⬝ᵥ ridgeBeta X y lam

/-- The Ridge objective `‖y − Xβ − β₀‖² + λ‖β‖²` (intercept unpenalized). -/
def ridgeObjective {n p : ℕ} (X : Matrix (Fin n) (Fin p) ℚ) (y : Fin n → ℚ)
    (lam : ℚ) (beta : Fin p → ℚ) (b0 : ℚ) : ℚ :=
  sumSq (fun i => y i - (X *ᵥ beta) i - b0) + lam * sumSq beta

/-- The Ridge objective after centering, as a function of the coefficients
alone (the intercept eliminated by its optimality condition). -/
def centeredObjective {n p : ℕ} (X : Matrix (Fin n) (Fin p) ℚ)
    (y : Fin n → ℚ) (lam : ℚ) (beta : Fin p → ℚ) : ℚ :=
  sumSq (fun i => centerVec n y i - (centerCols X *ᵥ beta) i) + lam * sumSq beta

/-! ## Prediction and scoring, modelled from the spec (section 4.2, 4.3) -/

/-- Prediction `ŷ = Xβ + β₀` on a design matrix. -/
def predictVec {m p : ℕ} (X : Matrix (Fin m) (Fin p) ℚ) (beta : Fin p → ℚ)
    (b0 : ℚ) : Fin m → ℚ :=
  fun i => (X *ᵥ beta) i + b0

/-- Modelled from the spec: `R² = 1 − SS_res/SS_tot`, `SS_tot` computed from
the mean of `y` (the `sklearn.metrics.r2_score` called by the notebook is not
repository code). -/
def r2_score (n : ℕ) (y yhat : Fin n → ℚ) : ℚ :=
  1 - sumSq (fun i => y i - yhat i) / sumSq (fun i => y i - mean n y)

/-- Modelled from the spec: `MSE = mean((y − ŷ)²)`. -/
def mean_squared_error (n : ℕ) (y yhat : Fin n → ℚ) : ℚ :=
  sumSq (fun i => y i - yhat i) / n

/-! ## Coordinate descent engine, modelled from the spec

Modelled from the spec: the repository calls `sklearn.linear_model.Lasso`
and `ElasticNet`, whose coordinate-descent implementation is not part of the
repository.  The spec (section 4.1) prescribes cyclic coordinate descent:
`β_j ← SoftThreshold(ρ_j, t) / (mean(X_j²) + d)` where `(t, d) = (λ, 0)` for
Lasso and `(λα, λ(1−α))` for Elastic Net, intercept updated each full pass
as the mean residual, stopping when the maximum coefficient change in a pass
drops below `tol` or after `max_iter` passes.  The engine below maintains the
residual vector incrementally, as coordinate-descent implementations do. -/

/-- Soft-thresholding operator, by cases (shown below to equal the spec's
`sign(x)·max(|x|−t, 0)` form for `t ≥ 0`). -/
def softThreshold (x t : ℚ) : ℚ :=
  if t < x then x - t else if x < -t then x + t else 0

/-- Sign of a rational number as a rational. -/
def sgn (x : ℚ) : ℚ := if 0 < x then 1 else if x < 0 then -1 else 0

/-- Mean of the squares of column `j` of the design matrix. -/
def meanSq {n p : ℕ} (X : Matrix (Fin n) (Fin p) ℚ) (j : Fin p) : ℚ :=
  (∑ i, X i j ^ 2) / n

/-- Coordinate-descent state: coefficients, intercept and the maintained
residual vector (invariant: `resid = y − Xβ − β₀`). -/
structure CDState (n p : ℕ) where
  beta : Fin p → ℚ
  b0 : ℚ
  resid : Fin n → ℚ

/-- The spec's partial residual correlation for feature `j`:
`ρ_j = (1/n) Σ_i X_ij (y_i − β₀ − Σ_{k≠j} X_ik β_k)`. -/
def rho {n p : ℕ} (X : Matrix (Fin n) (Fin p) ℚ) (y : Fin n → ℚ)
    (s : CDState n p) (j : Fin p) : ℚ :=
  (∑ i, X i j * (y i - s.b0 - ∑ k ∈ Finset.univ.erase j, X i k * s.beta k)) / n

/-- One coordinate update: soft-threshold the correlation computed from the
maintained residual, then patch the residual by the coefficient change. -/
def cdUpdate {n p : ℕ} (X : Matrix (Fin n) (Fin p) ℚ) (t d : ℚ)
    (s : CDState n p) (j : Fin p) : CDState n p :=
  let r := (∑ i, X i j * (s.resid i + X i j * s.beta j)) / n
  let bj := softThreshold r t / (meanSq X j + d)
  { beta := Function.update s.beta j bj
    b0 := s.b0
    resid := fun i => s.resid i - X i j * (bj - s.beta j) }

/-- One coordinate step of a pass, also tracking the largest coefficient
change so far. -/
def cdStep {n p : ℕ} (X : Matrix (Fin n) (Fin p) ℚ) (t d : ℚ)
    (a : CDState n p × ℚ) (j : Fin p) : CDState n p × ℚ :=
  let s2 := cdUpdate X t d a.1 j
  (s2, max a.2 |s2.beta j - a.1.beta j|)

/-- One full pass: cycle through the coordinates in order, tracking the
largest coefficient change, then update the intercept by the mean residual. -/
def cdPass {n p : ℕ} (X : Matrix (Fin n) (Fin p) ℚ) (t d : ℚ)
    (s : CDState n p) : CDState n p × ℚ :=
  let step := (List.finRange p).foldl (cdStep X t d) (s, 0)
  let m := mean n step.1.resid
  (⟨step.1.beta, step.1.b0 + m, fun i => step.1.resid i - m⟩, step.2)

/-- Run up to `fuel` passes; stop early once the maximum coefficient change
of a pass falls below `tol`.  Returns the final state, the number of passes
used, the convergence flag and the final maximum coefficient change. -/
def cdLoop {n p : ℕ} (X : Matrix (Fin n) (Fin p) ℚ) (t d tol : ℚ) :
    ℕ → CDState n p → CDState n p × ℕ × Bool × ℚ
  | 0, s => (s, 0, false, 0)
  | fuel + 1, s =>
    let r := cdPass X t d s
    if r.2 < tol then (r.1, 1, true, r.2)
    else if fuel = 0 then (r.1, 1, false, r.2)
    else
      let rest := cdLoop X t d tol fuel r.1
      (rest.1, rest.2.1 + 1, rest.2.2)

/-! ## The solver interface, modelled from the spec (sections 3, 4.1, 6, 7) -/

/-- The penalty kinds of the spec's `PenaltyConfig`. -/
inductive PenaltyKind
  | ols
  | ridge
  | lasso
  | elasticNet
deriving DecidableEq

/-- The spec's configuration surface:
`{kind, lambda, l1_ratio, tol, max_iter}`. -/
structure PenaltyConfig where
  kind : PenaltyKind
  lam : ℚ
  l1Ratio : ℚ
  tol : ℚ
  maxIter : ℕ
deriving DecidableEq

/-- A fitted model: coefficient list and intercept. -/
structure FittedModel where
  coefficients : List ℚ
  intercept : ℚ
deriving DecidableEq

/-- Fit diagnostics: passes used, convergence flag, final maximum
coefficient change (the spec's "duality gap" proxy). -/
structure FitDiagnostics where
  iterations : ℕ
  converged : Bool
  gap : ℚ
deriving DecidableEq

/-- The spec's error taxonomy (section 7); `NonConvergence` is deliberately
absent, being a diagnostic rather than an error. -/
inductive FitError
  | DimensionMismatch
  | InvalidConfig
  | DegenerateInput
deriving DecidableEq

/-- A configuration is valid when `λ ≥ 0`, `α ∈ [0,1]`, `tol > 0` and
`max_iter > 0`. -/
def validConfig (c : PenaltyConfig) : Prop :=
  0 ≤ c.lam ∧ 0 ≤ c.l1Ratio ∧ c.l1Ratio ≤ 1 ∧ 0 < c.tol ∧ 0 < c.maxIter

instance (c : PenaltyConfig) : Decidable (validConfig c) := by
  unfold validConfig; infer_instance

/-- View a row-list as an `n × p` matrix (missing entries read as `0`;
`fit` only uses this after its dimension check). -/
def toMatrix (X : List (List ℚ)) (n p : ℕ) : Matrix (Fin n) (Fin p) ℚ :=
  Matrix.of fun i j => (X.getD i []).getD j 0

/-- View a list as a length-`n` vector. -/
def toVec (y : List ℚ) (n : ℕ) : Fin n → ℚ := fun i => y.getD i 0

/-- Package a coordinate-descent run as a model plus diagnostics. -/
def cdFit {n p : ℕ} (X : Matrix (Fin n) (Fin p) ℚ) (y : Fin n → ℚ)
    (t d tol : ℚ) (maxIter : ℕ) : FittedModel × FitDiagnostics :=
  let s0 : CDState n p := ⟨fun _ => 0, 0, y⟩
  let r := cdLoop X t d tol maxIter s0
  (⟨List.ofFn r.1.beta, r.1.b0⟩, ⟨r.2.1, r.2.2.1, r.2.2.2⟩)

/-- Package the Ridge closed form (also used, at `λ = 0`, as the
normal-equation OLS path the spec describes). -/
def closedFormFit {n p : ℕ} (X : Matrix (Fin n) (Fin p) ℚ) (y : Fin n → ℚ)
    (lam : ℚ) : FittedModel × FitDiagnostics :=
  (⟨List.ofFn (ridgeBeta X y lam), ridgeIntercept X y lam⟩, ⟨0, true, 0⟩)

/-- Modelled from the spec (section 4.1): the solver entry point.
Config errors are surfaced first, before any other work; then the dimension
check; then dispatch on the penalty kind: closed form for OLS/Ridge,
coordinate descent for Lasso (`t = λ, d = 0`) and Elastic Net
(`t = λα, d = λ(1−α)`). -/
def fit (X : List (List ℚ)) (y : List ℚ) (cfg : PenaltyConfig) :
    Except FitError (FittedModel × FitDiagnostics) :=
  if ¬ validConfig cfg then .error .InvalidConfig
  else if y.length ≠ X.length then .error .DimensionMismatch
  else
    let n := X.length
    let p := (X.headD []).length
    let Xm := toMatrix X n p
    let yv := toVec y n
    match cfg.kind with
    | .ols => .ok (closedFormFit Xm yv 0)
    | .ridge => .ok (closedFormFit Xm yv cfg.lam)
    | .lasso => .ok (cdFit Xm yv cfg.lam 0 cfg.tol cfg.maxIter)
    | .elasticNet =>
        .ok (cdFit Xm yv (cfg.lam * cfg.l1Ratio) (cfg.lam * (1 - cfg.l1Ratio))
          cfg.tol cfg.maxIter)

/-- The spec's Elastic Net objective
`(1/2n)‖y − Xβ − β₀‖² + λ(α‖β‖₁ + (1−α)/2·‖β‖²)`. -/
def elasticNetObjective {n p : ℕ} (X : Matrix (Fin n) (Fin p) ℚ)
    (y : Fin n → ℚ) (lam alpha : ℚ) (beta : Fin p → ℚ) (b0 : ℚ) : ℚ :=
  sumSq (fun i => y i - (X *ᵥ beta) i - b0) / (2 * n)
    + lam * (alpha * ∑ j, |beta j| + (1 - alpha) / 2 * sumSq beta)

/-! ## Polynomial feature expansion

Modelled from the spec (section 4.7) and the notebook's calls to
`sklearn.preprocessing.PolynomialFeatures` (default `include_bias=True`):
for 1-D input, row `i` of the expansion is `[x_i⁰, x_i¹, …, x_i^d]`, so a
leading constant bias column of ones is column 0. -/
def polynomialFeatures (x : List ℚ) (d : ℕ) : List (List ℚ) :=
  x.map (fun v => (List.range (d + 1)).map (fun k => v ^ k))

/-! ## Train/test split and the end-to-end pipeline

Modelled from the spec (sections 1, 6) and the notebook's calls to
`sklearn.model_selection.train_test_split(..., test_size=0.2,
random_state=0)`: the library's seeded shuffle is not repository code, so it
is modelled as a deterministic permutation keyed by the effective seed — the
given `random_state` when present, the ambient entropy otherwise.  The
claims settled against this model concern only determinism, not the
statistics of the shuffle. -/

/-- A linear congruential step, keying the modelled shuffle. -/
def lcg (s : ℕ) : ℕ := (1103515245 * s + 12345) % 2147483648

/-- Insert into a list kept sorted by `key`. -/
def insertKeyed (key : ℕ → ℕ) (x : ℕ) : List ℕ → List ℕ
  | [] => [x]
  | y :: ys => if key x ≤ key y then x :: y :: ys else y :: insertKeyed key x ys

/-- Sort a list of indices by `key` (insertion sort). -/
def sortKeyed (key : ℕ → ℕ) : List ℕ → List ℕ :=
  List.foldr (insertKeyed key) []

/-- The modelled shuffle: indices `0..n-1` ordered by LCG-derived keys. -/
def shuffleIdx (seed n : ℕ) : List ℕ :=
  sortKeyed (fun i => lcg (seed + lcg i)) (List.range n)

/-- Rows of a list selected by an index list. -/
def gather {α : Type} (l : List α) (a : α) (idx : List ℕ) : List α :=
  idx.map (fun i => l.getD i a)

/-- Modelled from the spec: `train_test_split`.  The effective seed is
`random_state` when given, else the ambient `entropy`; the shuffled index
list is cut at `⌊test_size · n⌋` test rows. -/
def trainTestSplit (X : List (List ℚ)) (y : List ℚ) (testSize : ℚ)
    (randomState : Option ℕ) (entropy : ℕ) :
    List (List ℚ) × List (List ℚ) × List ℚ × List ℚ :=
  let seed := randomState.getD entropy
  let n := X.length
  let nTest := (testSize * n).floor.toNat
  let perm := shuffleIdx seed n
  let testIdx := perm.take nTest
  let trainIdx := perm.drop nTest
  (gather X [] trainIdx, gather X [] testIdx, gather y 0 trainIdx,
    gather y 0 testIdx)

/-- Dot product of two coefficient lists. -/
def dotList (a b : List ℚ) : ℚ := (List.zipWith (fun u v => u * v) a b).sum

/-- List-level prediction `ŷ = X·β + β₀`. -/
def predictList (m : FittedModel) (X : List (List ℚ)) : List ℚ :=
  X.map (fun row => dotList row m.coefficients + m.intercept)

/-- List-level mean. -/
def meanList (l : List ℚ) : ℚ := l.sum / l.length

/-- List-level `R²`. -/
def r2List (y yhat : List ℚ) : ℚ :=
  1 - (List.zipWith (fun a b => (a - b) ^ 2) y yhat).sum
    / (y.map (fun a => (a - meanList y) ^ 2)).sum

/-- List-level mean squared error. -/
def mseList (y yhat : List ℚ) : ℚ :=
  (List.zipWith (fun a b => (a - b) ^ 2) y yhat).sum / y.length

/-- The notebook's downstream pipeline on fixed `X`, `y`: split with
`test_size = 0.2` and `random_state = 0`, fit, predict on both partitions,
and score.  The `entropy` argument stands for all ambient randomness a run
could observe; a seeded split must ignore it. -/
def runPipeline (X : List (List ℚ)) (y : List ℚ) (cfg : PenaltyConfig)
    (entropy : ℕ) :
    Except FitError
      (FittedModel × FitDiagnostics × List ℚ × List ℚ × ℚ × ℚ × ℚ × ℚ) :=
  let s := trainTestSplit X y (1 / 5) (some 0) entropy
  match fit s.1 s.2.2.1 cfg with
  | .error e => .error e
  | .ok (m, dg) =>
      let predTr := predictList m s.1
      let predTe := predictList m s.2.1
      .ok (m, dg, predTr, predTe, r2List s.2.2.1 predTr,
        r2List s.2.2.2 predTe, mseList s.2.2.1 predTr, mseList s.2.2.2 predTe)

/-! ## Helper lemmas -/

lemma sumSq_nonneg {m : ℕ} (v : Fin m → ℚ) : 0 ≤ sumSq v :=
  Finset.sum_nonneg fun i _ => sq_nonneg (v i)

lemma sumSq_eq_zero_iff {m : ℕ} (v : Fin m → ℚ) :
    sumSq v = 0 ↔ ∀ i, v i = 0 := by
  unfold sumSq
  rw [Finset.sum_eq_zero_iff_of_nonneg fun i _ => sq_nonneg (v i)]
  simp [pow_eq_zero_iff]

lemma sumSq_pos {m : ℕ} (v : Fin m → ℚ) (hv : v ≠ 0) : 0 < sumSq v := by
  rcases Function.ne_iff.mp hv with ⟨i, hi⟩
  have h1 : v i ^ 2 ≠ 0 := pow_ne_zero 2 hi
  have h2 : 0 < v i ^ 2 := lt_of_le_of_ne (sq_nonneg (v i)) (Ne.symm h1)
  calc (0 : ℚ) < v i ^ 2 := h2
    _ ≤ sumSq v :=
        Finset.single_le_sum (fun k _ => sq_nonneg (v k)) (Finset.mem_univ i)

lemma dotProduct_self_eq_sumSq {m : ℕ} (v : Fin m → ℚ) :
    v ⬝ᵥ v = sumSq v := by
  unfold sumSq Matrix.dotProduct
  exact Finset.sum_congr rfl fun i _ => (sq (v i)).symm ▸ (pow_two (v i)).symm

lemma sum_center_eq_zero {n : ℕ} (hn : 0 < n) (v : Fin n → ℚ) :
    ∑ i, (v i - mean n v) = 0 := by
  have hne : (n : ℚ) ≠ 0 := Nat.cast_ne_zero.mpr hn.ne'
  simp only [Finset.sum_sub_distrib, mean, Finset.sum_const, Finset.card_univ,
    Fintype.card_fin, nsmul_eq_mul]
  field_simp

lemma sum_sq_mean_le {n : ℕ} (hn : 0 < n) (v : Fin n → ℚ) (c : ℚ) :
    ∑ i, (v i - mean n v) ^ 2 ≤ ∑ i, (v i - c) ^ 2 := by
  have h0 := sum_center_eq_zero hn v
  have hexp : ∀ i : Fin n, (v i - c) ^ 2
      = (v i - mean n v) ^ 2 + 2 * (mean n v - c) * (v i - mean n v)
        + (mean n v - c) ^ 2 := fun i => by ring
  have hsum : ∑ i, (v i - c) ^ 2
      = ∑ i, (v i - mean n v) ^ 2 + (n : ℚ) * (mean n v - c) ^ 2 := by
    simp only [hexp, Finset.sum_add_distrib, ← Finset.mul_sum, h0, mul_zero,
      add_zero, Finset.sum_const, Finset.card_univ, Fintype.card_fin,
      nsmul_eq_mul]
  have hpos : 0 ≤ (n : ℚ) * (mean n v - c) ^ 2 :=
    mul_nonneg (Nat.cast_nonneg n) (sq_nonneg _)
  linarith

lemma mean_residual {n p : ℕ} (X : Matrix (Fin n) (Fin p) ℚ) (y : Fin n → ℚ)
    (beta : Fin p → ℚ) :
    mean n (fun i => y i - (X *ᵥ beta) i) = mean n y - colMean X ⬝ᵥ beta := by
  simp only [mean, colMean, Matrix.mulVec, Matrix.dotProduct,
    Finset.sum_sub_distrib, sub_div]
  congr 1
  rw [Finset.sum_comm, Finset.sum_div]
  refine Finset.sum_congr rfl fun j _ => ?_
  rw [← Finset.sum_mul]
  ring

lemma center_residual {n p : ℕ} (X : Matrix (Fin n) (Fin p) ℚ) (y : Fin n → ℚ)
    (beta : Fin p → ℚ) (i : Fin n) :
    centerVec n y i - (centerCols X *ᵥ beta) i
      = (y i - (X *ᵥ beta) i) - mean n (fun i2 => y i2 - (X *ᵥ beta) i2) := by
  rw [mean_residual]
  simp only [centerVec, centerCols, Matrix.mulVec, Matrix.dotProduct,
    Matrix.of_apply, sub_mul, Finset.sum_sub_distrib, colMean, mean]
  ring

lemma objective_centered {n p : ℕ} (X : Matrix (Fin n) (Fin p) ℚ)
    (y : Fin n → ℚ) (lam : ℚ) (beta : Fin p → ℚ) :
    ridgeObjective X y lam beta (mean n y - colMean X ⬝ᵥ beta)
      = centeredObjective X y lam beta := by
  unfold ridgeObjective centeredObjective sumSq
  congr 1
  refine Finset.sum_congr rfl fun i _ => ?_
  show (y i - (X *ᵥ beta) i - (mean n y - colMean X ⬝ᵥ beta)) ^ 2
    = (centerVec n y i - (centerCols X *ᵥ beta) i) ^ 2
  rw [center_residual X y beta i, mean_residual]

lemma sumSq_sub_expand {m : ℕ} (u w : Fin m → ℚ) :
    sumSq (fun i => u i - w i) = sumSq u - 2 * (u ⬝ᵥ w) + sumSq w := by
  unfold sumSq Matrix.dotProduct
  have h : ∀ i : Fin m, (u i - w i) ^ 2
      = u i ^ 2 - 2 * (u i * w i) + w i ^ 2 := fun i => by ring
  simp only [h, Finset.sum_add_distrib, Finset.sum_sub_distrib, ← Finset.mul_sum]

lemma sumSq_add_expand {m : ℕ} (u w : Fin m → ℚ) :
    sumSq (fun i => u i + w i) = sumSq u + 2 * (u ⬝ᵥ w) + sumSq w := by
  unfold sumSq Matrix.dotProduct
  have h : ∀ i : Fin m, (u i + w i) ^ 2
      = u i ^ 2 + 2 * (u i * w i) + w i ^ 2 := fun i => by ring
  simp only [h, Finset.sum_add_distrib, ← Finset.mul_sum]

lemma centered_min {n p : ℕ} (X : Matrix (Fin n) (Fin p) ℚ) (y : Fin n → ℚ)
    (lam : ℚ) (hlam : 0 ≤ lam) (bstar : Fin p → ℚ)
    (hsolve : ridgeMat X lam *ᵥ bstar = (centerCols X)ᵀ *ᵥ centerVec n y)
    (beta : Fin p → ℚ) :
    centeredObjective X y lam bstar ≤ centeredObjective X y lam beta := by
  set Xc := centerCols X with hXc
  set yc := centerVec n y with hyc
  set dl : Fin p → ℚ := fun j => beta j - bstar j with hdl
  have hbeta : beta = fun j => bstar j + dl j := by funext j; simp [hdl]
  have hnormal : (Xcᵀ * Xc) *ᵥ bstar + lam • bstar = Xcᵀ *ᵥ yc := by
    have h := hsolve
    rwa [ridgeMat, Matrix.add_mulVec, Matrix.smul_mulVec_assoc,
      Matrix.one_mulVec] at h
  have hXcT : Xcᵀ *ᵥ (fun i => yc i - (Xc *ᵥ bstar) i) = lam • bstar := by
    have h1 : (fun i => yc i - (Xc *ᵥ bstar) i) = yc - Xc *ᵥ bstar := rfl
    rw [h1, Matrix.mulVec_sub, Matrix.mulVec_mulVec, ← hnormal]
    abel
  have hcross : (fun i => yc i - (Xc *ᵥ bstar) i) ⬝ᵥ (Xc *ᵥ dl)
      = lam * (bstar ⬝ᵥ dl) := by
    rw [Matrix.dotProduct_mulVec, ← Matrix.mulVec_transpose, hXcT,
      Matrix.smul_dotProduct, smul_eq_mul]
  have hsplit : (fun j => bstar j + dl j) = bstar + dl := rfl
  have hres : (fun i => yc i - (Xc *ᵥ beta) i)
      = fun i => (fun i2 => yc i2 - (Xc *ᵥ bstar) i2) i - (Xc *ᵥ dl) i := by
    funext i
    rw [hbeta, hsplit, Matrix.mulVec_add]
    show yc i - ((Xc *ᵥ bstar) i + (Xc *ᵥ dl) i)
      = yc i - (Xc *ᵥ bstar) i - (Xc *ᵥ dl) i
    ring
  have e1 : sumSq (fun i => yc i - (Xc *ᵥ beta) i)
      = sumSq (fun i => yc i - (Xc *ᵥ bstar) i) - 2 * (lam * (bstar ⬝ᵥ dl))
        + sumSq (fun i => (Xc *ᵥ dl) i) := by
    rw [hres, sumSq_sub_expand, hcross]
  have e2 : sumSq beta = sumSq bstar + 2 * (bstar ⬝ᵥ dl) + sumSq dl := by
    rw [hbeta, hsplit]
    exact sumSq_add_expand bstar dl
  have e3 : lam * sumSq beta
      = lam * sumSq bstar + 2 * (lam * (bstar ⬝ᵥ dl)) + lam * sumSq dl := by
    rw [e2]; ring
  have h1 : 0 ≤ sumSq (fun i => (Xc *ᵥ dl) i) := sumSq_nonneg _
  have h2 : 0 ≤ lam * sumSq dl := mul_nonneg hlam (sumSq_nonneg _)
  unfold centeredObjective
  rw [← hXc, ← hyc]
  linarith [e1, e3]

lemma adjInv_mulVec {p : ℕ} (A : Matrix (Fin p) (Fin p) ℚ) (hdet : A.det ≠ 0)
    (b : Fin p → ℚ) : A *ᵥ (adjInv A *ᵥ b) = b := by
  rw [Matrix.mulVec_mulVec]
  have h : A * adjInv A = 1 := by
    unfold adjInv
    rw [Matrix.mul_smul, Matrix.mul_adjugate, smul_smul,
      inv_mul_cancel₀ hdet, one_smul]
  rw [h, Matrix.one_mulVec]

lemma ridge_normal_eq {n p : ℕ} (X : Matrix (Fin n) (Fin p) ℚ)
    (y : Fin n → ℚ) (lam : ℚ) (hdet : (ridgeMat X lam).det ≠ 0) :
    ridgeMat X lam *ᵥ ridgeBeta X y lam = (centerCols X)ᵀ *ᵥ centerVec n y := by
  unfold ridgeBeta
  exact adjInv_mulVec _ hdet _

lemma ridgeMat_det_ne_zero {n p : ℕ} (X : Matrix (Fin n) (Fin p) ℚ) {lam : ℚ}
    (hlam : 0 < lam) : (ridgeMat X lam).det ≠ 0 := by
  intro hdet
  obtain ⟨v, hv, hAv⟩ := Matrix.exists_mulVec_eq_zero_iff.mpr hdet
  have hquad : v ⬝ᵥ (ridgeMat X lam *ᵥ v) = 0 := by
    rw [hAv, Matrix.dotProduct_zero]
  have hexpand : v ⬝ᵥ (ridgeMat X lam *ᵥ v)
      = sumSq (centerCols X *ᵥ v) + lam * sumSq v := by
    unfold ridgeMat
    rw [Matrix.add_mulVec, Matrix.dotProduct_add, Matrix.smul_mulVec_assoc,
      Matrix.one_mulVec, ← Matrix.mulVec_mulVec, Matrix.dotProduct_mulVec,
      ← Matrix.mulVec_transpose, Matrix.transpose_transpose,
      Matrix.dotProduct_smul, smul_eq_mul, dotProduct_self_eq_sumSq,
      dotProduct_self_eq_sumSq]
  have hpos : 0 < sumSq (centerCols X *ᵥ v) + lam * sumSq v := by
    have := sumSq_nonneg (centerCols X *ᵥ v)
    have := mul_pos hlam (sumSq_pos v hv)
    linarith
  rw [hexpand] at hquad
  linarith

lemma mean_const {n : ℕ} (hn : 0 < n) (c : ℚ) : mean n (fun _ => c) = c := by
  have hne : (n : ℚ) ≠ 0 := Nat.cast_ne_zero.mpr hn.ne'
  unfold mean
  rw [Finset.sum_const, Finset.card_univ, Fintype.card_fin, nsmul_eq_mul]
  field_simp

lemma mulVec_update {n p : ℕ} (X : Matrix (Fin n) (Fin p) ℚ)
    (beta : Fin p → ℚ) (j : Fin p) (c : ℚ) (i : Fin n) :
    (X *ᵥ Function.update beta j c) i = (X *ᵥ beta) i + X i j * (c - beta j) := by
  simp only [Matrix.mulVec, Matrix.dotProduct]
  rw [← Finset.sum_erase_add _ _ (Finset.mem_univ j),
    ← Finset.sum_erase_add _ (fun k => X i k * beta k) (Finset.mem_univ j)]
  rw [Function.update_same]
  rw [Finset.sum_congr rfl fun k hk =>
    by rw [Function.update_noteq (Finset.ne_of_mem_erase hk)]]
  ring

lemma mulVec_split {n p : ℕ} (X : Matrix (Fin n) (Fin p) ℚ)
    (beta : Fin p → ℚ) (j : Fin p) (i : Fin n) :
    (X *ᵥ beta) i
      = (∑ k ∈ Finset.univ.erase j, X i k * beta k) + X i j * beta j := by
  simp only [Matrix.mulVec, Matrix.dotProduct]
  rw [Finset.sum_erase_add _ _ (Finset.mem_univ j)]

lemma cdUpdate_invariant {n p : ℕ} (X : Matrix (Fin n) (Fin p) ℚ)
    (y : Fin n → ℚ) (t d : ℚ) (s : CDState n p)
    (hinv : ∀ i, s.resid i = y i - (X *ᵥ s.beta) i - s.b0) (j : Fin p) :
    ∀ i, (cdUpdate X t d s j).resid i
      = y i - (X *ᵥ (cdUpdate X t d s j).beta) i - (cdUpdate X t d s j).b0 := by
  intro i
  unfold cdUpdate
  simp only []
  rw [hinv i, mulVec_update]
  ring

lemma cdUpdate_formula {n p : ℕ} (X : Matrix (Fin n) (Fin p) ℚ)
    (y : Fin n → ℚ) (t d : ℚ) (s : CDState n p)
    (hinv : ∀ i, s.resid i = y i - (X *ᵥ s.beta) i - s.b0) (j : Fin p) :
    (cdUpdate X t d s j).beta j = softThreshold (rho X y s j) t / (meanSq X j + d) := by
  unfold cdUpdate
  simp only [Function.update_same]
  have hr : (∑ i, X i j * (s.resid i + X i j * s.beta j)) / n = rho X y s j := by
    unfold rho
    congr 1
    refine Finset.sum_congr rfl fun i _ => ?_
    rw [hinv i, mulVec_split X s.beta j i]
    ring
  rw [hr]

lemma cdSteps_invariant {n p : ℕ} (X : Matrix (Fin n) (Fin p) ℚ)
    (y : Fin n → ℚ) (t d : ℚ) (l : List (Fin p)) :
    ∀ a : CDState n p × ℚ,
      (∀ i, a.1.resid i = y i - (X *ᵥ a.1.beta) i - a.1.b0) →
      ∀ i, (l.foldl (cdStep X t d) a).1.resid i
        = y i - (X *ᵥ (l.foldl (cdStep X t d) a).1.beta) i
          - (l.foldl (cdStep X t d) a).1.b0 := by
  induction l with
  | nil => intro a ha; exact ha
  | cons j l ih =>
    intro a ha
    refine ih (cdStep X t d a j) ?_
    intro i
    exact cdUpdate_invariant X y t d a.1 ha j i

lemma cdPass_intercept {n p : ℕ} (hn : 0 < n) (X : Matrix (Fin n) (Fin p) ℚ)
    (y : Fin n → ℚ) (t d : ℚ) (s : CDState n p)
    (hinv : ∀ i, s.resid i = y i - (X *ᵥ s.beta) i - s.b0) :
    (cdPass X t d s).1.b0
      = mean n (fun i => y i - (X *ᵥ (cdPass X t d s).1.beta) i) := by
  have hne : (n : ℚ) ≠ 0 := Nat.cast_ne_zero.mpr hn.ne'
  unfold cdPass
  simp only []
  set a := (List.finRange p).foldl (cdStep X t d) (s, 0) with ha
  have hainv : ∀ i, a.1.resid i = y i - (X *ᵥ a.1.beta) i - a.1.b0 :=
    cdSteps_invariant X y t d (List.finRange p) (s, 0) hinv
  have hm : mean n a.1.resid
      = mean n (fun i => y i - (X *ᵥ a.1.beta) i) - a.1.b0 := by
    unfold mean
    rw [Finset.sum_congr rfl fun i _ => hainv i, Finset.sum_sub_distrib,
      Finset.sum_const, Finset.card_univ, Fintype.card_fin, nsmul_eq_mul]
    field_simp
  rw [hm]
  ring

lemma cdLoop_cap {n p : ℕ} (X : Matrix (Fin n) (Fin p) ℚ) (t d tol : ℚ) :
    ∀ (fuel : ℕ) (s : CDState n p), 0 < fuel →
      (cdLoop X t d tol fuel s).2.2.1 = false →
        (cdLoop X t d tol fuel s).2.1 = fuel
          ∧ tol ≤ (cdLoop X t d tol fuel s).2.2.2 := by
  intro fuel
  induction fuel with
  | zero => intro s h; exact absurd h (lt_irrefl 0)
  | succ m ih =>
    intro s _ hfalse
    by_cases hlt : (cdPass X t d s).2 < tol
    · simp only [cdLoop, if_pos hlt] at hfalse
      exact Bool.noConfusion hfalse
    · by_cases hm : m = 0
      · subst hm
        simp only [cdLoop, if_neg hlt, if_pos rfl]
        exact ⟨rfl, not_lt.mp hlt⟩
      · have hmpos : 0 < m := Nat.pos_of_ne_zero hm
        simp only [cdLoop, if_neg hlt, if_neg hm] at hfalse ⊢
        obtain ⟨h1, h2⟩ := ih (cdPass X t d s).1 hmpos hfalse
        exact ⟨by rw [h1], h2⟩

lemma cdLoop_tolerance {n p : ℕ} (X : Matrix (Fin n) (Fin p) ℚ)
    (t d tol : ℚ) :
    ∀ (fuel : ℕ) (s : CDState n p),
      (cdLoop X t d tol fuel s).2.2.1 = true →
        (cdLoop X t d tol fuel s).2.2.2 < tol := by
  intro fuel
  induction fuel with
  | zero =>
    intro s h
    simp only [cdLoop] at h
    exact Bool.noConfusion h
  | succ m ih =>
    intro s htrue
    by_cases hlt : (cdPass X t d s).2 < tol
    · simp only [cdLoop, if_pos hlt]
      exact hlt
    · by_cases hm : m = 0
      · subst hm
        simp only [cdLoop, if_neg hlt] at htrue
        simp at htrue
      · simp only [cdLoop, if_neg hlt, if_neg hm] at htrue ⊢
        exact ih (cdPass X t d s).1 htrue

lemma softThreshold_sgn (x t : ℚ) (ht : 0 ≤ t) :
    softThreshold x t = sgn x * max (|x| - t) 0 := by
  unfold softThreshold sgn
  by_cases h1 : t < x
  · have hx : 0 < x := lt_of_le_of_lt ht h1
    rw [if_pos h1, if_pos hx, abs_of_pos hx, max_eq_left (by linarith)]
    ring
  · by_cases h2 : x < -t
    · have hx : x < 0 := lt_of_lt_of_le h2 (by linarith)
      rw [if_neg h1, if_pos h2, if_neg (asymm hx), if_pos hx,
        abs_of_neg hx, max_eq_left (by linarith)]
      ring
    · have hxle : x ≤ t := not_lt.mp h1
      have hxge : -t ≤ x := not_lt.mp h2
      have habs : |x| ≤ t := abs_le.mpr ⟨hxge, hxle⟩
      rw [if_neg h1, if_neg h2, max_eq_right (by linarith), mul_zero]

lemma ridge_fit_constant {n p : ℕ} (X : Matrix (Fin n) (Fin p) ℚ)
    (y : Fin n → ℚ) (lam : ℚ) (hconst : ∀ i : Fin n, y i = mean n y) :
    ∀ i, y i - predictVec X (ridgeBeta X y lam) (ridgeIntercept X y lam) i = 0 := by
  have hyc : centerVec n y = 0 := funext fun i => by
    simp [centerVec, hconst i]
  have hbeta : ridgeBeta X y lam = 0 := by
    unfold ridgeBeta
    rw [hyc, Matrix.mulVec_zero, Matrix.mulVec_zero]
  intro i
  unfold predictVec ridgeIntercept
  rw [hbeta, Matrix.mulVec_zero, Matrix.dotProduct_zero]
  simp [hconst i]

/-! ## Claim theorems -/

/-- Claim C1 (amended): for every design matrix `X` (`n ≥ 1`, `p ≥ 1`),
target `y` and `λ ≥ 0` such that the closed-form matrix `XcᵀXc + λI` is
nonsingular — which is automatic for every `λ > 0` — the Ridge fit
`β = (XᵀX + λI)⁻¹Xᵀy` after centering, with the intercept recovered from the
means, exactly minimizes `‖y − Xβ − β₀‖² + λ‖β‖²` over all `(β, β₀)`, the
intercept excluded from the penalty.  The fit is a pure closed-form function
of `X`, `y`, `λ`: no iteration, deterministic.  The original claim's
unrestricted `λ ≥ 0` fails when `λ = 0` and `XcᵀXc` is singular (see the
counterexample). -/
theorem claim_C1_ridge_closed_form_minimizes {n p : ℕ}
    (X : Matrix (Fin n) (Fin p) ℚ) (y : Fin n → ℚ) (lam : ℚ)
    (hn : 0 < n) (_hp : 0 < p) (hlam : 0 ≤ lam)
    (hreg : (ridgeMat X lam).det ≠ 0 ∨ 0 < lam)
    (beta : Fin p → ℚ) (b0 : ℚ) :
    ridgeObjective X y lam (ridgeBeta X y lam) (ridgeIntercept X y lam)
      ≤ ridgeObjective X y lam beta b0 := by
  have hdet : (ridgeMat X lam).det ≠ 0 :=
    hreg.elim id fun h => ridgeMat_det_ne_zero X h
  have h1 : ridgeObjective X y lam (ridgeBeta X y lam) (ridgeIntercept X y lam)
      = centeredObjective X y lam (ridgeBeta X y lam) := by
    unfold ridgeIntercept
    exact objective_centered X y lam (ridgeBeta X y lam)
  have h2 := centered_min X y lam hlam (ridgeBeta X y lam)
    (ridge_normal_eq X y lam hdet) beta
  have h3 : centeredObjective X y lam beta ≤ ridgeObjective X y lam beta b0 := by
    unfold ridgeObjective centeredObjective sumSq
    have step : ∑ i, (centerVec n y i - (centerCols X *ᵥ beta) i) ^ 2
        = ∑ i, ((y i - (X *ᵥ beta) i)
            - mean n (fun i2 => y i2 - (X *ᵥ beta) i2)) ^ 2 :=
      Finset.sum_congr rfl fun i _ => by rw [center_residual X y beta i]
    have hle := sum_sq_mean_le hn (fun i2 => y i2 - (X *ᵥ beta) i2) b0
    simp only [step]
    simp only [] at hle ⊢
    linarith
  linarith

/-- Claim C1 witness: a concrete instance (`n = 2`, `p = 1`, `λ = 1`) at
which the hypotheses hold and the closed form beats the particular
competitor `β = 0`, `β₀ = 0`. -/
theorem claim_C1_witness :
    0 < 2 ∧ 0 < 1 ∧ (0:ℚ) ≤ 1
      ∧ ridgeObjective (Matrix.of ![![(-1:ℚ)], ![1]]) ![0, 1] 1
          (ridgeBeta (Matrix.of ![![(-1:ℚ)], ![1]]) ![0, 1] 1)
          (ridgeIntercept (Matrix.of ![![(-1:ℚ)], ![1]]) ![0, 1] 1)
        ≤ ridgeObjective (Matrix.of ![![(-1:ℚ)], ![1]]) ![0, 1] 1 ![0] 0 :=
  ⟨by norm_num, by norm_num, by norm_num,
    claim_C1_ridge_closed_form_minimizes (Matrix.of ![![(-1:ℚ)], ![1]])
      ![0, 1] 1 (by norm_num) (by norm_num) (by norm_num)
      (Or.inr (by norm_num)) ![0] 0⟩

/-- Claim C1 counterexample: at `λ = 0` with the rank-deficient design
`X = [[1,1],[2,2]]` and `y = [0,1]` (a `λ ≥ 0` instance of the original
claim), the closed form does not minimize the objective: the explicit
competitor `β = (1,0)`, `β₀ = −1` achieves a strictly smaller value. -/
theorem claim_C1_counterexample :
    (0:ℚ) ≤ 0
      ∧ ridgeObjective (Matrix.of ![![(1:ℚ), 1], ![2, 2]]) ![0, 1] 0 ![1, 0] (-1)
        < ridgeObjective (Matrix.of ![![(1:ℚ), 1], ![2, 2]]) ![0, 1] 0
            (ridgeBeta (Matrix.of ![![(1:ℚ), 1], ![2, 2]]) ![0, 1] 0)
            (ridgeIntercept (Matrix.of ![![(1:ℚ), 1], ![2, 2]]) ![0, 1] 0) := by
  constructor
  · norm_num
  · with_unfolding_all decide

/-- Claim C5 (amended): for fixed `X`, `y` and `0 ≤ λ₁ ≤ λ₂` such that both
closed-form matrices `XcᵀXc + λᵢI` are nonsingular — automatic when
`λᵢ > 0` — the Euclidean norm of the Ridge coefficient vector is
non-increasing: `‖β(λ₂)‖₂ ≤ ‖β(λ₁)‖₂`.  The original claim's unrestricted
`0 ≤ λ₁` fails when `λ₁ = 0` makes the closed form singular (see the
counterexample). -/
theorem claim_C5_ridge_shrinkage_monotone {n p : ℕ}
    (X : Matrix (Fin n) (Fin p) ℚ) (y : Fin n → ℚ) (lam1 lam2 : ℚ)
    (h0 : 0 ≤ lam1) (h12 : lam1 ≤ lam2)
    (hreg1 : (ridgeMat X lam1).det ≠ 0 ∨ 0 < lam1)
    (hreg2 : (ridgeMat X lam2).det ≠ 0 ∨ 0 < lam2) :
    Real.sqrt (sumSq (ridgeBeta X y lam2) : ℝ)
      ≤ Real.sqrt (sumSq (ridgeBeta X y lam1) : ℝ) := by
  have hdet1 : (ridgeMat X lam1).det ≠ 0 :=
    hreg1.elim id fun h => ridgeMat_det_ne_zero X h
  have hdet2 : (ridgeMat X lam2).det ≠ 0 :=
    hreg2.elim id fun h => ridgeMat_det_ne_zero X h
  rcases eq_or_lt_of_le h12 with heq | hlt
  · rw [heq]
  · have hmin1 := centered_min X y lam1 h0 (ridgeBeta X y lam1)
      (ridge_normal_eq X y lam1 hdet1) (ridgeBeta X y lam2)
    have hmin2 := centered_min X y lam2 (le_trans h0 h12) (ridgeBeta X y lam2)
      (ridge_normal_eq X y lam2 hdet2) (ridgeBeta X y lam1)
    unfold centeredObjective at hmin1 hmin2
    have key : sumSq (ridgeBeta X y lam2) ≤ sumSq (ridgeBeta X y lam1) := by
      by_contra hcon
      push_neg at hcon
      nlinarith [mul_pos (sub_pos.mpr hlt) (sub_pos.mpr hcon)]
    exact Real.sqrt_le_sqrt (by exact_mod_cast key)

/-- Claim C5 witness: a concrete instance (`λ₁ = 1 ≤ λ₂ = 2`, both strictly
positive) at which the amended hypotheses hold. -/
theorem claim_C5_witness :
    (0:ℚ) ≤ 1 ∧ (1:ℚ) ≤ 2
      ∧ Real.sqrt (sumSq (ridgeBeta (Matrix.of ![![(-1:ℚ)], ![1]]) ![0, 1] 2) : ℝ)
        ≤ Real.sqrt (sumSq (ridgeBeta (Matrix.of ![![(-1:ℚ)], ![1]]) ![0, 1] 1) : ℝ) :=
  ⟨by norm_num, by norm_num,
    claim_C5_ridge_shrinkage_monotone (Matrix.of ![![(-1:ℚ)], ![1]]) ![0, 1]
      1 2 (by norm_num) (by norm_num) (Or.inr (by norm_num))
      (Or.inr (by norm_num))⟩

/-- Claim C5 counterexample: with the rank-deficient design
`X = [[1,1],[2,2]]`, `y = [0,1]` and `0 = λ₁ ≤ λ₂ = 1` (an instance of the
original claim), the closed-form coefficients at `λ₁ = 0` degenerate to `0`
while those at `λ₂ = 1` are `(1/4, 1/4)`, so the norm strictly increases. -/
theorem claim_C5_counterexample :
    (0:ℚ) ≤ 0 ∧ (0:ℚ) ≤ 1
      ∧ ¬ (Real.sqrt (sumSq (ridgeBeta (Matrix.of ![![(1:ℚ), 1], ![2, 2]]) ![0, 1] 1) : ℝ)
          ≤ Real.sqrt (sumSq (ridgeBeta (Matrix.of ![![(1:ℚ), 1], ![2, 2]]) ![0, 1] 0) : ℝ)) := by
  refine ⟨le_refl 0, by norm_num, ?_⟩
  have h2 : sumSq (ridgeBeta (Matrix.of ![![(1:ℚ), 1], ![2, 2]]) ![0, 1] 1)
      = 1 / 8 := by with_unfolding_all decide
  have h0 : sumSq (ridgeBeta (Matrix.of ![![(1:ℚ), 1], ![2, 2]]) ![0, 1] 0)
      = 0 := by with_unfolding_all decide
  rw [h2, h0]
  rw [not_le]
  have hz : ((0 : ℚ) : ℝ) = 0 := by norm_num
  rw [hz, Real.sqrt_zero]
  apply Real.sqrt_pos.mpr
  norm_num

/-- Claim C2: Lasso(λ) is fitted by cyclic coordinate descent.  In any
state whose residual vector satisfies the invariant `resid = y − Xβ − β₀`:
the soft-threshold operator equals the spec's `sign(x)·max(|x|−t,0)` form
(for `λ ≥ 0`); each coordinate update sets
`β_j ← SoftThreshold(ρ_j, λ) / mean(X_j²)` with `ρ_j` the partial residual
correlation; the update preserves the residual invariant; the intercept
after a full pass is the mean residual; the pass loop stops as soon as the
maximum coefficient change falls below the tolerance and otherwise runs to
the iteration cap; and `fit` dispatches a Lasso configuration to exactly
this engine with `t = λ`, `d = 0`. -/
theorem claim_C2_lasso_coordinate_descent {n p : ℕ}
    (X : Matrix (Fin n) (Fin p) ℚ) (y : Fin n → ℚ) (lam tol : ℚ)
    (hlam : 0 ≤ lam) (hn : 0 < n) (s : CDState n p)
    (hinv : ∀ i, s.resid i = y i - (X *ᵥ s.beta) i - s.b0) (j : Fin p)
    (Xl : List (List ℚ)) (yl : List ℚ) (cfg : PenaltyConfig)
    (hk : cfg.kind = PenaltyKind.lasso) (hv : validConfig cfg)
    (hd : yl.length = Xl.length) :
    softThreshold (rho X y s j) lam
        = sgn (rho X y s j) * max (|rho X y s j| - lam) 0
    ∧ (cdUpdate X lam 0 s j).beta j
        = softThreshold (rho X y s j) lam / meanSq X j
    ∧ (∀ i, (cdUpdate X lam 0 s j).resid i
        = y i - (X *ᵥ (cdUpdate X lam 0 s j).beta) i - (cdUpdate X lam 0 s j).b0)
    ∧ (cdPass X lam 0 s).1.b0
        = mean n (fun i => y i - (X *ᵥ (cdPass X lam 0 s).1.beta) i)
    ∧ (∀ (fuel : ℕ) (s2 : CDState n p), 0 < fuel →
        ((cdLoop X lam 0 tol fuel s2).2.2.1 = true →
          (cdLoop X lam 0 tol fuel s2).2.2.2 < tol)
        ∧ ((cdLoop X lam 0 tol fuel s2).2.2.1 = false →
          (cdLoop X lam 0 tol fuel s2).2.1 = fuel))
    ∧ fit Xl yl cfg
        = Except.ok (cdFit (toMatrix Xl Xl.length (Xl.headD []).length)
            (toVec yl Xl.length) cfg.lam 0 cfg.tol cfg.maxIter) := by
  refine ⟨softThreshold_sgn _ _ hlam, ?_,
    cdUpdate_invariant X y lam 0 s hinv j,
    cdPass_intercept hn X y lam 0 s hinv, ?_, ?_⟩
  · rw [cdUpdate_formula X y lam 0 s hinv j, add_zero]
  · intro fuel s2 hf
    exact ⟨cdLoop_tolerance X lam 0 tol fuel s2,
      fun hfalse => (cdLoop_cap X lam 0 tol fuel s2 hf hfalse).1⟩
  · simp [fit, hk, hv, hd]

/-- Claim C2 witness: the bundle instantiated at a concrete starting state
(`X = [[2]]`, `y = [3]`, `λ = 1`, zero initial coefficients) and a concrete
Lasso configuration. -/
theorem claim_C2_witness :
    softThreshold (rho (Matrix.of ![![(2:ℚ)]]) ![3] ⟨fun _ => 0, 0, ![3]⟩ 0) 1
        = sgn (rho (Matrix.of ![![(2:ℚ)]]) ![3] ⟨fun _ => 0, 0, ![3]⟩ 0)
          * max (|rho (Matrix.of ![![(2:ℚ)]]) ![3] ⟨fun _ => 0, 0, ![3]⟩ 0| - 1) 0
    ∧ (cdUpdate (Matrix.of ![![(2:ℚ)]]) 1 0 ⟨fun _ => 0, 0, ![3]⟩ 0).beta 0
        = softThreshold (rho (Matrix.of ![![(2:ℚ)]]) ![3] ⟨fun _ => 0, 0, ![3]⟩ 0) 1
          / meanSq (Matrix.of ![![(2:ℚ)]]) 0
    ∧ (∀ i, (cdUpdate (Matrix.of ![![(2:ℚ)]]) 1 0 ⟨fun _ => 0, 0, ![3]⟩ 0).resid i
        = ![3] i - (Matrix.of ![![(2:ℚ)]] *ᵥ (cdUpdate (Matrix.of ![![(2:ℚ)]]) 1 0
            ⟨fun _ => 0, 0, ![3]⟩ 0).beta) i
          - (cdUpdate (Matrix.of ![![(2:ℚ)]]) 1 0 ⟨fun _ => 0, 0, ![3]⟩ 0).b0)
    ∧ (cdPass (Matrix.of ![![(2:ℚ)]]) 1 0 ⟨fun _ => 0, 0, ![3]⟩).1.b0
        = mean 1 (fun i => ![3] i - (Matrix.of ![![(2:ℚ)]]
            *ᵥ (cdPass (Matrix.of ![![(2:ℚ)]]) 1 0 ⟨fun _ => 0, 0, ![3]⟩).1.beta) i)
    ∧ (∀ (fuel : ℕ) (s2 : CDState 1 1), 0 < fuel →
        ((cdLoop (Matrix.of ![![(2:ℚ)]]) 1 0 (1/2) fuel s2).2.2.1 = true →
          (cdLoop (Matrix.of ![![(2:ℚ)]]) 1 0 (1/2) fuel s2).2.2.2 < 1/2)
        ∧ ((cdLoop (Matrix.of ![![(2:ℚ)]]) 1 0 (1/2) fuel s2).2.2.1 = false →
          (cdLoop (Matrix.of ![![(2:ℚ)]]) 1 0 (1/2) fuel s2).2.1 = fuel))
    ∧ fit [[2]] [3] ⟨PenaltyKind.lasso, 1, 1, 1/2, 3⟩
        = Except.ok (cdFit (toMatrix [[2]] (List.length [[(2:ℚ)]])
            (List.length (List.headD [[(2:ℚ)]] [])))
            (toVec [3] (List.length [[(2:ℚ)]])) 1 0 (1/2) 3) :=
  claim_C2_lasso_coordinate_descent (Matrix.of ![![(2:ℚ)]]) ![3] 1 (1/2)
    (by norm_num) (by norm_num) ⟨fun _ => 0, 0, ![3]⟩
    (by with_unfolding_all decide) 0 [[2]] [3]
    ⟨PenaltyKind.lasso, 1, 1, 1/2, 3⟩ rfl (by with_unfolding_all decide) rfl

/-- Claim C3: on every valid Lasso or Elastic Net input, `fit` returns a
(best-effort) fitted model with diagnostics rather than failing; whenever
the diagnostics report `converged = false`, the loop ran to the iteration
cap and the final maximum coefficient change (the reported gap) is still at
least the tolerance.  Non-convergence is never surfaced as an error. -/
theorem claim_C3_nonconvergence_is_diagnostic (X : List (List ℚ))
    (y : List ℚ) (cfg : PenaltyConfig) (hv : validConfig cfg)
    (hk : cfg.kind = PenaltyKind.lasso ∨ cfg.kind = PenaltyKind.elasticNet)
    (hd : y.length = X.length) :
    ∃ md : FittedModel × FitDiagnostics,
      fit X y cfg = Except.ok md
        ∧ (md.2.converged = false →
            md.2.iterations = cfg.maxIter ∧ cfg.tol ≤ md.2.gap) := by
  have hmi : 0 < cfg.maxIter := hv.2.2.2.2
  rcases hk with hk | hk
  · refine ⟨cdFit (toMatrix X X.length (X.headD []).length)
      (toVec y X.length) cfg.lam 0 cfg.tol cfg.maxIter, ?_, ?_⟩
    · simp [fit, hk, hv, hd]
    · intro hc
      have hc2 : (cdLoop (toMatrix X X.length (X.headD []).length)
          cfg.lam 0 cfg.tol cfg.maxIter
          ⟨fun _ => 0, 0, toVec y X.length⟩).2.2.1 = false := hc
      exact cdLoop_cap _ _ _ _ cfg.maxIter _ hmi hc2
  · refine ⟨cdFit (toMatrix X X.length (X.headD []).length)
      (toVec y X.length) (cfg.lam * cfg.l1Ratio) (cfg.lam * (1 - cfg.l1Ratio))
      cfg.tol cfg.maxIter, ?_, ?_⟩
    · simp [fit, hk, hv, hd]
    · intro hc
      have hc2 : (cdLoop (toMatrix X X.length (X.headD []).length)
          (cfg.lam * cfg.l1Ratio) (cfg.lam * (1 - cfg.l1Ratio)) cfg.tol
          cfg.maxIter ⟨fun _ => 0, 0, toVec y X.length⟩).2.2.1 = false := hc
      exact cdLoop_cap _ _ _ _ cfg.maxIter _ hmi hc2

/-- Claim C3 witness: a concrete Lasso configuration with `max_iter = 1`
whose fit exists and satisfies the diagnostic guarantee. -/
theorem claim_C3_witness :
    validConfig ⟨PenaltyKind.lasso, 1/100, 1, 1/1000, 1⟩
      ∧ ∃ md : FittedModel × FitDiagnostics,
          fit [[1], [2]] [1, 5] ⟨PenaltyKind.lasso, 1/100, 1, 1/1000, 1⟩
            = Except.ok md
          ∧ (md.2.converged = false → md.2.iterations = 1 ∧ 1/1000 ≤ md.2.gap) :=
  ⟨by with_unfolding_all decide,
    claim_C3_nonconvergence_is_diagnostic [[1], [2]] [1, 5]
      ⟨PenaltyKind.lasso, 1/100, 1, 1/1000, 1⟩
      (by with_unfolding_all decide) (Or.inl rfl) rfl⟩

/-- Claim C4 (amended): `ElasticNet(λ, α = 1)` produces exactly the same
fit as `Lasso(λ)` (the coordinate-descent engines coincide at the L1
boundary), but `ElasticNet(λ, α = 0)` does not reproduce `Ridge(λ)`: by the
spec's own objectives, the `α = 0` Elastic Net objective is
`(1/2n)·(Ridge objective at strength n·λ)`, so its minimizer matches Ridge
at strength `n·λ`, not `λ` (see the counterexample). -/
theorem claim_C4_elasticnet_boundary (Xl : List (List ℚ)) (yl : List ℚ)
    (lam tol : ℚ) (mi : ℕ) {n p : ℕ} (X : Matrix (Fin n) (Fin p) ℚ)
    (y : Fin n → ℚ) (hn : 0 < n) (beta : Fin p → ℚ) (b0 : ℚ) :
    fit Xl yl ⟨PenaltyKind.elasticNet, lam, 1, tol, mi⟩
        = fit Xl yl ⟨PenaltyKind.lasso, lam, 1, tol, mi⟩
    ∧ elasticNetObjective X y lam 0 beta b0
        = 1 / (2 * n) * ridgeObjective X y (n * lam) beta b0 := by
  constructor
  · by_cases hlen : yl.length ≠ Xl.length
    · simp [fit, validConfig, hlen]
    · simp [fit, validConfig, hlen, mul_one, sub_self, mul_zero]
  · have hne : (n : ℚ) ≠ 0 := Nat.cast_ne_zero.mpr hn.ne'
    unfold elasticNetObjective ridgeObjective
    field_simp
    ring

/-- Claim C4 witness: the boundary statement instantiated at a concrete
configuration (`λ = 1`) and a concrete one-sample problem. -/
theorem claim_C4_witness :
    fit [[1]] [2] ⟨PenaltyKind.elasticNet, 1, 1, 1/2, 1⟩
        = fit [[1]] [2] ⟨PenaltyKind.lasso, 1, 1, 1/2, 1⟩
    ∧ elasticNetObjective (Matrix.of ![![(1:ℚ)]]) ![2] 1 0 ![1] 0
        = 1 / (2 * (1:ℕ)) * ridgeObjective (Matrix.of ![![(1:ℚ)]]) ![2]
            ((1:ℕ) * 1) ![1] 0 :=
  claim_C4_elasticnet_boundary [[1]] [2] 1 (1/2) 1 (Matrix.of ![![(1:ℚ)]])
    ![2] (by norm_num) ![1] 0

/-- Claim C4 counterexample: with `X = [[-1],[1]]`, `y = [-1,1]` and
`λ = 2`, the converged `ElasticNet(2, α = 0)` fit has coefficient `1/3`
while the `Ridge(2)` fit has coefficient `1/2`, so `ElasticNet(λ, 0)` does
not reproduce `Ridge(λ)`. -/
theorem claim_C4_counterexample :
    Except.map (fun md => md.1.coefficients)
        (fit [[-1], [1]] [-1, 1] ⟨PenaltyKind.elasticNet, 2, 0, 1/100, 10⟩)
      ≠ Except.map (fun md => md.1.coefficients)
        (fit [[-1], [1]] [-1, 1] ⟨PenaltyKind.ridge, 2, 0, 1/100, 10⟩) := by
  have h1 : Except.map (fun md => md.1.coefficients)
      (fit [[-1], [1]] [-1, 1] ⟨PenaltyKind.elasticNet, 2, 0, 1/100, 10⟩)
      = Except.ok [1/3] := by with_unfolding_all rfl
  have h2 : Except.map (fun md => md.1.coefficients)
      (fit [[-1], [1]] [-1, 1] ⟨PenaltyKind.ridge, 2, 0, 1/100, 10⟩)
      = Except.ok [1/2] := by with_unfolding_all rfl
  rw [h1, h2]
  simp only [ne_eq, Except.ok.injEq, List.cons.injEq, and_true]
  norm_num

/-- Claim C6 (amended): for every valid penalty configuration, `fit` with
`len(y) ≠ rows(X)` always fails with `DimensionMismatch` and never
silently truncates either input.  The original claim, read over all
configurations, fails when the configuration is itself invalid: config
validation is surfaced first, per the spec's "fit not attempted" rule (see
the counterexample). -/
theorem claim_C6_dimension_mismatch (X : List (List ℚ)) (y : List ℚ)
    (cfg : PenaltyConfig) (hv : validConfig cfg)
    (hlen : y.length ≠ X.length) :
    fit X y cfg = Except.error FitError.DimensionMismatch := by
  simp [fit, hv, hlen]

/-- Claim C6 witness: a concrete valid Ridge configuration with one row of
`X` and an empty `y`. -/
theorem claim_C6_witness :
    validConfig ⟨PenaltyKind.ridge, 1, 1, 1, 1⟩
      ∧ ([] : List ℚ).length ≠ ([[1]] : List (List ℚ)).length
      ∧ fit [[1]] [] ⟨PenaltyKind.ridge, 1, 1, 1, 1⟩
          = Except.error FitError.DimensionMismatch :=
  ⟨by with_unfolding_all decide, by decide,
    claim_C6_dimension_mismatch [[1]] [] ⟨PenaltyKind.ridge, 1, 1, 1, 1⟩
      (by with_unfolding_all decide) (by decide)⟩

/-- Claim C6 counterexample: with mismatched dimensions but an invalid
configuration (`λ = −1`), `fit` fails with `InvalidConfig`, not
`DimensionMismatch`. -/
theorem claim_C6_counterexample :
    ([] : List ℚ).length ≠ ([[1]] : List (List ℚ)).length
      ∧ fit [[1]] [] ⟨PenaltyKind.ridge, -1, 1, 1, 1⟩
          ≠ Except.error FitError.DimensionMismatch := by
  refine ⟨by decide, ?_⟩
  have h : fit [[1]] [] ⟨PenaltyKind.ridge, -1, 1, 1, 1⟩
      = Except.error FitError.InvalidConfig := by
    have hbad : ¬ validConfig ⟨PenaltyKind.ridge, -1, 1, 1, 1⟩ := by
      unfold validConfig
      intro hc
      have := hc.1
      norm_num at this
    simp [fit, hbad]
  rw [h]
  simp only [ne_eq, Except.error.injEq]
  decide

/-- Claim C7: for every configuration with `λ < 0`, or `α` outside `[0,1]`,
or `tol ≤ 0`, or `max_iter ≤ 0`, `fit` fails with `InvalidConfig`
immediately — the config check is the first thing `fit` does, before the
dimension check and before any fitting computation. -/
theorem claim_C7_invalid_config_rejected (X : List (List ℚ)) (y : List ℚ)
    (cfg : PenaltyConfig)
    (hbad : cfg.lam < 0 ∨ cfg.l1Ratio < 0 ∨ 1 < cfg.l1Ratio
      ∨ cfg.tol ≤ 0 ∨ cfg.maxIter = 0) :
    fit X y cfg = Except.error FitError.InvalidConfig := by
  have hnv : ¬ validConfig cfg := by
    unfold validConfig
    rcases hbad with h | h | h | h | h <;>
      · rintro ⟨h1, h2, h3, h4, h5⟩
        linarith
  simp [fit, hnv]

/-- Claim C7 witness: a concrete configuration with `λ = −1`. -/
theorem claim_C7_witness :
    ((-1:ℚ) < 0 ∨ (1:ℚ) < 0 ∨ (1:ℚ) < 1 ∨ (1:ℚ) ≤ 0 ∨ (1:ℕ) = 0)
      ∧ fit [[1]] [2] ⟨PenaltyKind.ridge, -1, 1, 1, 1⟩
          = Except.error FitError.InvalidConfig :=
  ⟨Or.inl (by norm_num),
    claim_C7_invalid_config_rejected [[1]] [2]
      ⟨PenaltyKind.ridge, -1, 1, 1, 1⟩ (Or.inl (by norm_num))⟩

/-- Claim C8: with `R² = 1 − SS_res/SS_tot` (`SS_tot` from the mean of
`y`), every model produced by the exact-solution closed form (OLS is the
`λ = 0` instance, Ridge any `λ`) scores `R² ≤ 1` on its own training set,
with equality exactly when every training residual is zero.  (When `y` is
constant the closed form fits it exactly, so the degenerate `SS_tot = 0`
case only arises with all-zero residuals.) -/
theorem claim_C8_r2_upper_bound {n p : ℕ} (X : Matrix (Fin n) (Fin p) ℚ)
    (y : Fin n → ℚ) (lam : ℚ) :
    r2_score n y (predictVec X (ridgeBeta X y lam) (ridgeIntercept X y lam)) ≤ 1
    ∧ (r2_score n y (predictVec X (ridgeBeta X y lam) (ridgeIntercept X y lam)) = 1
        ↔ ∀ i, y i
            - predictVec X (ridgeBeta X y lam) (ridgeIntercept X y lam) i = 0) := by
  set yhat := predictVec X (ridgeBeta X y lam) (ridgeIntercept X y lam) with hyhat
  have hres : 0 ≤ sumSq (fun i => y i - yhat i) := sumSq_nonneg _
  have htot : 0 ≤ sumSq (fun i => y i - mean n y) := sumSq_nonneg _
  have hquot : 0 ≤ sumSq (fun i => y i - yhat i)
      / sumSq (fun i => y i - mean n y) := div_nonneg hres htot
  constructor
  · unfold r2_score
    linarith
  · unfold r2_score
    constructor
    · intro h1
      have hzero : sumSq (fun i => y i - yhat i)
          / sumSq (fun i => y i - mean n y) = 0 := by linarith
      rcases div_eq_zero_iff.mp hzero with hz | hz
      · exact fun i => (sumSq_eq_zero_iff _).mp hz i
      · have hconst : ∀ i : Fin n, y i = mean n y := fun i =>
          sub_eq_zero.mp ((sumSq_eq_zero_iff _).mp hz i)
        exact ridge_fit_constant X y lam hconst
    · intro hr
      have hz : sumSq (fun i => y i - yhat i) = 0 :=
        (sumSq_eq_zero_iff _).mpr hr
      rw [hz, zero_div, sub_zero]

/-- Claim C9: for 1-D input and every degree `d ≥ 0`, the modelled
polynomial expansion produces rows of exactly `d + 1` entries
`[x⁰, x¹, …, x^d]`, with the constant bias column of ones as column 0 —
the `include_bias = True` convention the notebook's
`PolynomialFeatures(degree=d)` calls fix. -/
theorem claim_C9_polynomial_features (x : List ℚ) (d i j : ℕ)
    (hi : i < x.length) (hj : j < d + 1) :
    (polynomialFeatures x d).length = x.length
    ∧ ((polynomialFeatures x d).getD i []).length = d + 1
    ∧ ((polynomialFeatures x d).getD i []).getD 0 0 = 1
    ∧ ((polynomialFeatures x d).getD i []).getD j 0 = x.getD i 0 ^ j := by
  have hrow : (polynomialFeatures x d).getD i []
      = (List.range (d + 1)).map (fun k => x.getD i 0 ^ k) := by
    unfold polynomialFeatures
    rw [List.getD_eq_getElem?_getD, List.getElem?_map,
      List.getElem?_eq_getElem hi, List.getD_eq_getElem?_getD,
      List.getElem?_eq_getElem hi]
    rfl
  have hcol : ∀ k, k < d + 1 →
      ((List.range (d + 1)).map (fun k2 => x.getD i 0 ^ k2)).getD k 0
        = x.getD i 0 ^ k := by
    intro k hk
    rw [List.getD_eq_getElem?_getD, List.getElem?_map, List.getElem?_range hk]
    rfl
  refine ⟨?_, ?_, ?_, ?_⟩
  · unfold polynomialFeatures
    rw [List.length_map]
  · rw [hrow, List.length_map, List.length_range]
  · rw [hrow, hcol 0 (Nat.succ_pos d), pow_zero]
  · rw [hrow, hcol j hj]

/-- Claim C9 witness: the expansion of `x = [2, 3]` at degree 2, row 1,
column 2. -/
theorem claim_C9_witness :
    1 < ([2, 3] : List ℚ).length ∧ 2 < 2 + 1
      ∧ (polynomialFeatures [2, 3] 2).length = ([2, 3] : List ℚ).length
      ∧ ((polynomialFeatures [2, 3] 2).getD 1 []).length = 2 + 1
      ∧ ((polynomialFeatures [2, 3] 2).getD 1 []).getD 0 0 = 1
      ∧ ((polynomialFeatures [2, 3] 2).getD 1 []).getD 2 0
          = ([2, 3] : List ℚ).getD 1 0 ^ 2 :=
  ⟨by decide, by decide,
    claim_C9_polynomial_features [2, 3] 2 1 2 (by decide) (by decide)⟩

/-- Claim C10: the pipeline downstream of data generation is
deterministic.  With `random_state = 0` the modelled `train_test_split`
ignores the ambient entropy entirely, so two runs of split, fit, predict
and scoring on the same `X` and `y` — under any two ambient entropy values
— produce identical partitions, coefficients, predictions and scores. -/
theorem claim_C10_pipeline_deterministic (X : List (List ℚ)) (y : List ℚ)
    (cfg : PenaltyConfig) (e1 e2 : ℕ) :
    trainTestSplit X y (1/5) (some 0) e1 = trainTestSplit X y (1/5) (some 0) e2
    ∧ runPipeline X y cfg e1 = runPipeline X y cfg e2 :=
  ⟨rfl, rfl⟩

end RegressionAnalysis
